import Mathlib

/-!
Verification of the das2go concurrent fetch-and-aggregate core against its
specification.  The Go sources are embedded shallowly: Go byte strings become
lists of characters, Go maps become association lists, channels become the list
of values written to them, the network becomes an explicit transport oracle,
and fallible or panicking code returns Option / an explicit outcome type.
All definitions follow the Go source (package utils, package services/config,
package mongo) line by line; deviations are noted in comments.
-/

set_option maxHeartbeats 1000000

namespace Das2go

/-! ## Go strings

Go strings in the fetch layer are modelled as lists of characters so that
character replacement (strings.Replace) and containment (strings.Contains)
are fully transparent to proofs. -/

/-- Go string: a list of characters. -/
abbrev GoStr := List Char

/-- Model of strings.Replace(s, "#", "%23", -1): every occurrence of the
single-character pattern is expanded in place. -/
def replaceHash (s : GoStr) : GoStr :=
  s.flatMap (fun c => if c = '#' then ['%', '2', '3'] else [c])

/-- Model of strings.Contains(s, "#") for the single-character pattern. -/
def containsHash (s : GoStr) : Bool :=
  s.any (fun c => c = '#')

/-! ## Fetch executor (utils package)

FetchResponse / fetch / Fetch from the utils package.  The HTTP transport is
an oracle mapping the dispatched URL to either an error or a response body
(the gzip decode and body read of the Go code are folded into the oracle
outcome, as the claims only distinguish transport success from failure).
The URL grammar PatternUrl is defined outside the provided sources, so the
regular-expression match is an abstract boolean parameter; the length check
of validateUrl is from the source.  The model fixes UseDNSCache = false and
omits the header section and the global GET/POST counters, which no claim
observes. -/

/-- ResponseType from the Go source (Time and Params omitted: wall-clock
timing is not modelled and Params is never read). -/
structure ResponseType where
  Url : GoStr
  Data : GoStr
  Error : Option GoStr
  Method : String
  SendBytes : Nat
  RecvBytes : Nat
deriving Repr, DecidableEq

/-- Result of one FetchResponse invocation: the response together with the
URL handed to the HTTP client, none when no network request was issued. -/
structure FetchAttempt where
  resp : ResponseType
  dispatched : Option GoStr
deriving Repr, DecidableEq

/-- The error message produced for a URL that fails validation. -/
def invalidUrlMsg : GoStr := "Invalid URL".data

/-- validateUrl from the Go source: a URL is valid when it is nonempty and
matches the PatternUrl grammar (abstracted as pat). -/
def validateUrl (pat : GoStr → Bool) (rurl : GoStr) : Bool :=
  if rurl.length > 0 then pat rurl else false

/-- The hash substitution step of FetchResponse: replacement is applied only
when the URL contains a literal hash character, as in the source. -/
def procUrl (rurl : GoStr) : GoStr :=
  if containsHash rurl then replaceHash rurl else rurl

/-- FetchResponse from the Go source.  net is the transport oracle for this
single attempt.  Steps, in source order: replace hash characters, record the
URL in the response, validate (returning an immediate error response with no
dispatch on failure), select POST/GET by the presence of args, dispatch, and
either record the transport error or the received body. -/
def FetchResponse (pat : GoStr → Bool) (net : GoStr → Except GoStr GoStr)
    (rurl0 args : GoStr) : FetchAttempt :=
  let rurl := procUrl rurl0
  let base : ResponseType :=
    { Url := rurl, Data := [], Error := none, Method := "", SendBytes := 0, RecvBytes := 0 }
  if validateUrl pat rurl = false then
    { resp := { base with Error := some invalidUrlMsg }, dispatched := none }
  else
    let prepared : ResponseType :=
      if args.length > 0 then
        { base with Method := "POST", SendBytes := args.length }
      else
        { base with Method := "GET" }
    match net rurl with
    | .error e => { resp := { prepared with Error := some e }, dispatched := some rurl }
    | .ok body =>
        { resp := { prepared with Data := body, RecvBytes := body.length },
          dispatched := some rurl }

/-- Observable outcome of one call of the asynchronous fetch function:
the responses written to the result channel in order, the number of
FetchResponse invocations, and the number of network dispatches. -/
structure FetchOutcome where
  sent : List ResponseType
  attempts : Nat
  netCalls : Nat
deriving Repr, DecidableEq

/-- The retry loop of fetch: attempt index i, rem remaining retries, last the
most recent failing response.  On success the response is sent and the loop
stops; when retries are exhausted the last failing response is sent.  The
transport oracle net is indexed by the attempt number. -/
def fetchLoop (net : Nat → GoStr → Except GoStr GoStr) (pat : GoStr → Bool)
    (rurl args : GoStr) : Nat → Nat → ResponseType → FetchOutcome
  | _, 0, last => { sent := [last], attempts := 0, netCalls := 0 }
  | i, rem + 1, _ =>
      let a := FetchResponse pat (net i) rurl args
      if a.resp.Error = none then
        { sent := [a.resp], attempts := 1, netCalls := a.dispatched.toList.length }
      else
        let o := fetchLoop net pat rurl args (i + 1) rem a.resp
        { sent := o.sent, attempts := o.attempts + 1,
          netCalls := o.netCalls + a.dispatched.toList.length }

/-- fetch from the Go source: one initial FetchResponse; on success the
response is sent at once, otherwise up to retry further attempts are made and
finally the last response is sent regardless. -/
def fetch (net : Nat → GoStr → Except GoStr GoStr) (pat : GoStr → Bool)
    (retry : Nat) (rurl args : GoStr) : FetchOutcome :=
  let a := FetchResponse pat (net 0) rurl args
  if a.resp.Error = none then
    { sent := [a.resp], attempts := 1, netCalls := a.dispatched.toList.length }
  else
    let o := fetchLoop net pat rurl args 1 retry a.resp
    { sent := o.sent, attempts := o.attempts + 1,
      netCalls := o.netCalls + a.dispatched.toList.length }

/-- UrlRequest from the Go source (the result channel and the http client are
identities not observable in the model and are omitted). -/
structure UrlRequest where
  rurl : GoStr
  args : GoStr
  ts : Int
deriving Repr, DecidableEq

/-- Outcome of the Fetch wrapper: either fetch was invoked inline, or a
request was sent to the UrlRequestChannel for the worker. -/
inductive FetchDispatch where
  | direct (outcome : FetchOutcome)
  | queued (r : UrlRequest)
deriving Repr, DecidableEq

/-- Fetch from the Go source: with a positive UrlQueueLimit the request is
sent to the worker channel stamped with the submission time, otherwise fetch
runs directly. -/
def Fetch (limit : Int) (net : Nat → GoStr → Except GoStr GoStr)
    (pat : GoStr → Bool) (retry : Nat) (rurl args : GoStr) (now : Int) :
    FetchDispatch :=
  if 0 < limit then
    .queued { rurl := rurl, args := args, ts := now }
  else
    .direct (fetch net pat retry rurl args)

/-! ## URL fetch worker queue (container/heap over UrlFetchQueue)

The worker keeps a UrlFetchQueue, a slice of UrlRequest forming a binary
min-heap under Less i j := q[i].ts < q[j].ts.  heap.Push appends and sifts
up; heap.Pop swaps the root with the last element, sifts the new root down
over the shortened range, and removes the last element.  The sift routines
below are the up and down functions of Go package container/heap specialised
to this Less. -/

/-- Default element for out-of-range slice reads; every access in the
verified operations is in bounds. -/
def dummyReq : UrlRequest := { rurl := [], args := [], ts := 0 }

/-- Slice indexing q[i]. -/
def qget (q : List UrlRequest) (i : Nat) : UrlRequest := q.getD i dummyReq

/-- Swap implementation of UrlFetchQueue: q[i], q[j] = q[j], q[i]. -/
def qswap (q : List UrlRequest) (i j : Nat) : List UrlRequest :=
  (q.set i (qget q j)).set j (qget q i)

/-- up from container/heap: while the element at j is strictly smaller than
its parent, swap them and continue from the parent. -/
def upHeap (q : List UrlRequest) (j : Nat) : List UrlRequest :=
  if h : j = 0 then q
  else
    let i := (j - 1) / 2
    if (qget q j).ts < (qget q i).ts then upHeap (qswap q i j) i else q
termination_by j
decreasing_by
  have hj : 1 ≤ j := Nat.one_le_iff_ne_zero.mpr h
  calc (j - 1) / 2 ≤ j - 1 := Nat.div_le_self _ _
    _ < j := by omega

/-- The child of i selected by down from container/heap within bound n: the
right child when it exists and is strictly smaller, else the left child. -/
def pickChild (q : List UrlRequest) (i n : Nat) : Nat :=
  if 2 * i + 2 < n ∧ (qget q (2 * i + 2)).ts < (qget q (2 * i + 1)).ts then
    2 * i + 2
  else
    2 * i + 1

/-- down from container/heap over the index range below n: while some child
of i exists and the smaller child is strictly smaller than i, swap and
continue from that child. -/
def downHeap (q : List UrlRequest) (i n : Nat) : List UrlRequest :=
  if _h : 2 * i + 1 < n then
    let j := pickChild q i n
    if (qget q j).ts < (qget q i).ts then downHeap (qswap q i j) j n else q
  else q
termination_by n - i
decreasing_by
  have hij : i < pickChild q i n ∧ pickChild q i n < n := by
    unfold pickChild
    split <;> omega
  omega

/-- heap.Push: append the new request and sift it up from the last index. -/
def heapPush (q : List UrlRequest) (x : UrlRequest) : List UrlRequest :=
  upHeap (q ++ [x]) q.length

/-- heap.Pop: swap the root with the last element, sift the new root down
over the shortened range, and split off the last element, which is returned.
The first component is the popped request. -/
def heapPop (q : List UrlRequest) : UrlRequest × List UrlRequest :=
  let n := q.length - 1
  let q2 := downHeap (qswap q 0 n) 0 n
  (qget q2 n, q2.take n)

/-- The binary min-heap ordering over the first n entries: every non-root
index below n is at least its parent in timestamp order. -/
def IsHeapN (q : List UrlRequest) (n : Nat) : Prop :=
  ∀ c, 0 < c → c < n → (qget q ((c - 1) / 2)).ts ≤ (qget q c).ts

/-- The heap invariant of the whole queue. -/
def IsHeap (q : List UrlRequest) : Prop := IsHeapN q q.length

/-- States of the heap except possibly the edge from index j to its parent;
the children of j additionally sit above the parent of j, so that the parent
may move down into j.  This is the invariant of the up sift. -/
def UpInv (q : List UrlRequest) (n j : Nat) : Prop :=
  (∀ c, 0 < c → c < n → c ≠ j → (qget q ((c - 1) / 2)).ts ≤ (qget q c).ts)
  ∧ (∀ c, 0 < c → c < n → (c - 1) / 2 = j → 0 < j →
      (qget q ((j - 1) / 2)).ts ≤ (qget q c).ts)

/-- States of the heap except possibly the edges out of the hole i; the
children of the hole additionally sit above the parent of the hole.  This is
the invariant of the down sift. -/
def DownInv (q : List UrlRequest) (n i : Nat) : Prop :=
  (∀ c, 0 < c → c < n → (c - 1) / 2 ≠ i → (qget q ((c - 1) / 2)).ts ≤ (qget q c).ts)
  ∧ (0 < i → ∀ c, 0 < c → c < n → (c - 1) / 2 = i →
      (qget q ((i - 1) / 2)).ts ≤ (qget q c).ts)

/-- Queue states the URLFetchWorker can reach: starting empty, pushing an
arriving request, or popping when nonempty. -/
inductive ReachableQueue : List UrlRequest → Prop where
  | empty : ReachableQueue []
  | push (q : List UrlRequest) (x : UrlRequest) :
      ReachableQueue q → ReachableQueue (heapPush q x)
  | pop (q : List UrlRequest) :
      ReachableQueue q → q ≠ [] → ReachableQueue (heapPop q).2

/-! ## TLS certificate manager (utils package)

Time instants are integer seconds.  A loaded tls.Certificate is modelled by
the outcome of parsing its leading raw certificate: notAfter is the parsed
NotAfter instant, none when x509.ParseCertificate fails. -/

/-- One tls.Certificate, reduced to the x509 parse outcome of its first raw
certificate. -/
structure Cert where
  notAfter : Option Int
deriving Repr, DecidableEq

/-- CertExpire from the Go source: the NotAfter of the first certificate in
the list that parses, the zero time when none does. -/
def CertExpire : List Cert → Int
  | [] => 0
  | c :: cs =>
      match c.notAfter with
      | some t => t
      | none => CertExpire cs

/-- TLSCertsManager state: the cached bundle (nil before the first load) and
the instant of the last window start. -/
structure TLSCertsManager where
  Certs : Option (List Cert)
  Expire : Int
deriving Repr, DecidableEq

/-- GetCerts from the Go source, one invocation.  now is the current instant,
interval is TLSCertsRenewInterval, and load is the outcome of tlsCerts for
this call.  The result is the new manager state paired with the returned
bundle, or none when the call hits log.Fatal (refresh failed with no previous
bundle).  time.Since(t.Expire) is now - t.Expire and After is strict
comparison. -/
def GetCerts (t : TLSCertsManager) (now interval : Int)
    (load : Except String (List Cert)) :
    Option (TLSCertsManager × Option (List Cert)) :=
  if t.Certs = none ∨ now - t.Expire > interval then
    match load with
    | .ok certs => some ({ Certs := some certs, Expire := now }, some certs)
    | .error _ =>
        match t.Certs with
        | some old =>
            let ts := now + 600
            if CertExpire old > ts then
              some ({ Certs := some old, Expire := ts }, some old)
            else
              some ({ Certs := some old, Expire := now }, some old)
        | none => none
  else
    some (t, t.Certs)

/-! ## Interleaving model of concurrent GetCerts calls

GetCerts opens with var lock = sync.Mutex{} followed by lock.Lock(): the
mutex is a fresh local variable of each invocation, so taking it never
blocks any other call and provides no exclusion between two concurrent
invocations.  Each invocation is therefore two atomic transitions against
the shared manager fields: evaluate the refresh condition, then run tlsCerts
and store its result.  loads counts tlsCerts invocations. -/

/-- Program counter of one GetCerts invocation in the interleaving model. -/
inductive CertPC where
  | check
  | load
  | done
deriving Repr, DecidableEq

/-- Shared state seen by concurrent GetCerts calls plus the load counter of
the mock loader. -/
structure CertShared where
  certs : Option Nat
  loads : Nat
deriving Repr, DecidableEq

/-- One atomic step of one GetCerts invocation.  At check the freshly created
local mutex is acquired (it is always free) and the refresh condition is
evaluated on the shared state; expired tells whether the renewal window has
elapsed.  At load, tlsCerts runs and its bundle is stored. -/
def certStep (expired : Bool) (pc : CertPC) (s : CertShared) :
    CertPC × CertShared :=
  match pc with
  | .check => if s.certs = none ∨ expired then (.load, s) else (.done, s)
  | .load => (.done, { certs := some 1, loads := s.loads + 1 })
  | .done => (.done, s)

/-- Two concurrent GetCerts invocations driven by a schedule: true steps the
first caller, false the second. -/
def runRace (expired : Bool) : List Bool → CertPC × CertPC → CertShared →
    CertPC × CertPC × CertShared
  | [], (pcA, pcB), s => (pcA, pcB, s)
  | true :: rest, (pcA, pcB), s =>
      let r := certStep expired pcA s
      runRace expired rest (r.1, pcB) r.2
  | false :: rest, (pcA, pcB), s =>
      let r := certStep expired pcB s
      runRace expired rest (pcA, r.1) r.2

/-! ## DAS records (mongo package)

DASRecord is map[string]interface{}; it is modelled as an association list
with string keys whose values range over the interface{} shapes the embedded
code stores or inspects.  A missing map key reads as the nil interface
value. -/

/-- An interface{} value stored in a DASRecord. -/
inductive Value where
  | vNil : Value
  | vStr : String → Value
  | vInt : Int → Value
  | vInt64 : Int → Value
  | vNum : Int → Value
  | vRec : List (String × Value) → Value
  | vRecList : List (List (String × Value)) → Value
  | vList : List Value → Value

/-- DASRecord from the mongo package. -/
abbrev DASRecord := List (String × Value)

/-- Go map read rec[key]: the stored value, or the nil interface value when
the key is absent. -/
def recGet (rec : DASRecord) (key : String) : Value :=
  match rec.find? (fun kv => kv.1 == key) with
  | some kv => kv.2
  | none => .vNil

/-- Go map write rec[key] = v: replace the entry when the key is present,
append it otherwise. -/
def recSet (rec : DASRecord) (key : String) (v : Value) : DASRecord :=
  if rec.any (fun kv => kv.1 == key) then
    rec.map (fun kv => if kv.1 == key then (kv.1, v) else kv)
  else
    rec ++ [(key, v)]

/-- Outcome of a Go call returning (value, error) that may also panic: ok
carries a value with nil error, err carries the zero value returned together
with a non-nil error, panicked marks a failed unchecked type assertion. -/
inductive GoResult (α : Type) where
  | ok : α → GoResult α
  | err : α → String → GoResult α
  | panicked : GoResult α
deriving Repr, DecidableEq

/-- GetStringValue on an already-split dotted key.  With several components
remaining, the code runs the unchecked assertion rec[keys[0]].(DASRecord):
any non-record value, including the nil read of an absent key, panics.  With
one component left, the final value is cast with the checked form, yielding
the zero value and an error on mismatch.  Recursing on the component list is
exact: the source rejoins and re-splits the tail, and components produced by
strings.Split on the dot contain no dot. -/
def getStringValueAux : DASRecord → List String → GoResult String
  | rec, [k] =>
      match recGet rec k with
      | .vStr s => .ok s
      | _ => .err "" ("Unable to cast value for key " ++ k)
  | rec, k :: k2 :: ks =>
      match recGet rec k with
      | .vRec r => getStringValueAux r (k2 :: ks)
      | _ => .panicked
  | _, [] => .panicked

/-- GetStringValue from the mongo package: split the dotted key and walk. -/
def GetStringValue (rec : DASRecord) (key : String) : GoResult String :=
  getStringValueAux rec (key.splitOn ".")

/-- GetIntValue on an already-split dotted key; identical to the string
variant except for the final checked cast to int. -/
def getIntValueAux : DASRecord → List String → GoResult Int
  | rec, [k] =>
      match recGet rec k with
      | .vInt n => .ok n
      | _ => .err 0 ("Unable to cast value for key " ++ k)
  | rec, k :: k2 :: ks =>
      match recGet rec k with
      | .vRec r => getIntValueAux r (k2 :: ks)
      | _ => .panicked
  | _, [] => .panicked

/-- GetIntValue from the mongo package. -/
def GetIntValue (rec : DASRecord) (key : String) : GoResult Int :=
  getIntValueAux rec (key.splitOn ".")

/-- GetInt64Value on an already-split dotted key; identical to the string
variant except for the final checked cast to int64. -/
def getInt64ValueAux : DASRecord → List String → GoResult Int
  | rec, [k] =>
      match recGet rec k with
      | .vInt64 n => .ok n
      | _ => .err 0 ("Unable to cast value for key " ++ k)
  | rec, k :: k2 :: ks =>
      match recGet rec k with
      | .vRec r => getInt64ValueAux r (k2 :: ks)
      | _ => .panicked
  | _, [] => .panicked

/-- GetInt64Value from the mongo package. -/
def GetInt64Value (rec : DASRecord) (key : String) : GoResult Int :=
  getInt64ValueAux rec (key.splitOn ".")

/-! ## Services layer: run and lumi aggregation (services package)

OrderByRunLumis and the row-building loop of file_run_lumi.  Both live in
the provided source.  They call mongo.GetValue, whose definition is not in
the provided sources (only its typed siblings above are); it is modelled
below.  Run and lumi-section numbers are the float64 values produced by the
JSON decoder; the embedded code compares and groups them but never computes
with them, so they are represented by vNum over Int. -/

/-- Modelled from the spec: mongo.GetValue, the untyped dotted-key accessor
used by OrderByRunLumis, is absent from the provided sources.  Following the
record shapes of section 4.5 of the spec (one-to-many relation values are
single-element lists of Record) and the dotted traversal of its typed
siblings, it walks nested records, entering the first element of a
record-list wrapper, and returns the raw final value; a path through any
other shape is a failed assertion, modelled as none. -/
def getValueAux : DASRecord → List String → Option Value
  | rec, [k] => some (recGet rec k)
  | rec, k :: k2 :: ks =>
      match recGet rec k with
      | .vRec r => getValueAux r (k2 :: ks)
      | .vRecList (r :: _) => getValueAux r (k2 :: ks)
      | _ => none
  | _, [] => none

/-- Cast of every element of a lumi list with v.(float64); any non-number
element panics, modelled as none. -/
def lumiNums : List Value → Option (List Int)
  | [] => some []
  | .vNum x :: vs => (lumiNums vs).map (fun ls => x :: ls)
  | _ :: _ => none

/-- The per-record reads of the OrderByRunLumis loop: lumi.number cast to a
list, run.run_number cast to float64, every lumi element cast to float64. -/
def extractRL (r : DASRecord) : Option (Int × List Int) :=
  match getValueAux r ["lumi", "number"] with
  | some (.vList l) =>
      match getValueAux r ["run", "run_number"] with
      | some (.vNum run) => (lumiNums l).map (fun ls => (run, ls))
      | _ => none
  | _ => none

/-- One iteration on rmap: when the run is already a key its lumi list is
extended by appending, otherwise the run is inserted with the new list, as
in the two branches on rmap[run]. -/
def rmapAppend (rmap : List (Int × List Int)) (run : Int) (lumis : List Int) :
    List (Int × List Int) :=
  if rmap.any (fun p => p.1 == run) then
    rmap.map (fun p => if p.1 == run then (p.1, p.2 ++ lumis) else p)
  else
    rmap ++ [(run, lumis)]

/-- The rmap accumulation loop of OrderByRunLumis over a list of already
extracted (run, lumis) pairs. -/
def buildRmap (rmap : List (Int × List Int)) (prs : List (Int × List Int)) :
    List (Int × List Int) :=
  prs.foldl (fun m p => rmapAppend m p.1 p.2) rmap

/-- Extraction of every record of the input, in order; none as soon as one
record panics. -/
def extractAll : List DASRecord → Option (List (Int × List Int))
  | [] => some []
  | r :: rs =>
      match extractRL r with
      | some p => (extractAll rs).map (fun ps => p :: ps)
      | none => none

/-- The run to lumis mapping rmap built by OrderByRunLumis; none when a type
assertion in the loop panics.  Association-list insertion order stands in
for the Go map, whose iteration order is unspecified; the claims compare the
mapping, not the emission order. -/
def OrderByRunLumisMap (records : List DASRecord) :
    Option (List (Int × List Int)) :=
  (extractAll records).map (buildRmap [])

/-- The output record built for one rmap entry in the final loop of
OrderByRunLumis: run and lumi both carry a bare nested record. -/
def runLumiRecord (p : Int × List Int) : DASRecord :=
  [("run", .vRec [("run_number", .vNum p.1)]),
   ("lumi", .vRec [("number", .vList (p.2.map .vNum))])]

/-- OrderByRunLumis from the services source: build rmap, then emit one
record per run. -/
def OrderByRunLumis (records : List DASRecord) : Option (List DASRecord) :=
  (OrderByRunLumisMap records).map (fun m => m.map runLumiRecord)

/-- The row built by the keys loop of file_run_lumi for one filelumis
record: each recognised key stores a single-element record-list under the
corresponding relation name, holding the raw value of the source field. -/
def fileRunLumiRow (keys : List String) (rec : DASRecord) : DASRecord :=
  keys.foldl
    (fun row key =>
      if key == "run_num" then
        recSet row "run" (.vRecList [[("run_number", recGet rec key)]])
      else if key == "lumi_section_num" then
        recSet row "lumi" (.vRecList [[("number", recGet rec key)]])
      else if key == "logical_file_name" then
        recSet row "file" (.vRecList [[("name", recGet rec key)]])
      else row)
    []

/-- file_run_lumi from the services source, starting from the unmarshalled
filelumis records (URL planning and transport are upstream of the behaviour
the claims inspect): build one row per input record and, exactly for the
paired run and lumi key lists, merge through OrderByRunLumis. -/
def file_run_lumi (keys : List String) (filelumis : List DASRecord) :
    Option (List DASRecord) :=
  let rows := filelumis.map (fileRunLumiRow keys)
  if keys = ["run_num", "lumi_section_num"] ∨
      keys = ["lumi_section_num", "run_num"] then
    OrderByRunLumis rows
  else
    some rows

/-! ## Helper definitions used by the statements below -/

/-- The response FetchResponse produces for a URL failing validation. -/
def invalidResp (rurl : GoStr) : ResponseType :=
  { Url := procUrl rurl, Data := [], Error := some invalidUrlMsg,
    Method := "", SendBytes := 0, RecvBytes := 0 }

/-- Transport oracle failing on the first N attempts with errors e and
succeeding with body thereafter. -/
def thresholdNet (e : Nat → GoStr) (body : GoStr) (N : Nat) :
    Nat → GoStr → Except GoStr GoStr :=
  fun i _ => if i < N then .error (e i) else .ok body

/-- Transport oracle that always succeeds with an empty body. -/
def alwaysOkNet : Nat → GoStr → Except GoStr GoStr := fun _ _ => .ok []

/-- Transport oracle (single attempt form) echoing the dispatched URL. -/
def echoNet : GoStr → Except GoStr GoStr := fun u => .ok u

/-- A URL grammar accepting everything; validateUrl still rejects the empty
URL through its length guard. -/
def truePat : GoStr → Bool := fun _ => true

/-- A concrete URL containing a literal hash character. -/
def urlC7 : GoStr := "http://host/a#b".data

/-- Whether a value is a single-element list of records, the uniform wrapping
shape for one-to-many relation keys. -/
def isSingletonRecList : Value → Bool
  | .vRecList [_] => true
  | _ => false

/-- Whether a value is a bare nested record. -/
def isBareRec : Value → Bool
  | .vRec _ => true
  | _ => false

/-- Lookup in the run to lumis mapping. -/
def rmapLookup (m : List (Int × List Int)) (k : Int) : Option (List Int) :=
  (m.find? (fun p => p.1 == k)).map Prod.snd

/-- The runs of a run to lumis mapping, in insertion order. -/
def rmapKeys (m : List (Int × List Int)) : List Int := m.map Prod.fst

/-- The lumis contributed to run k by a list of extracted pairs, in order. -/
def contrib (prs : List (Int × List Int)) (k : Int) : List Int :=
  prs.flatMap (fun p => if p.1 = k then p.2 else [])

/-- A record of the shape OrderByRunLumis reads: run 1 with lumi list [1]. -/
def r1bare : DASRecord :=
  [("run", .vRec [("run_number", .vNum 1)]),
   ("lumi", .vRec [("number", .vList [.vNum 1])])]

/-- A concrete filelumis record as DBSUnmarshal would deliver it: run number
1 with lumi-section list [1]. -/
def flRec : DASRecord :=
  [("run_num", .vNum 1), ("lumi_section_num", .vList [.vNum 1])]

/-! ## Lemmas about the fetch executor -/

theorem containsHash_replaceHash (s : GoStr) :
    containsHash (replaceHash s) = false := by
  induction s with
  | nil => rfl
  | cons c cs ih =>
      simp only [replaceHash, List.flatMap_cons, containsHash, List.any_append] at ih ⊢
      split
      · simpa using ih
      · next h =>
          simp only [List.any_cons, List.any_nil, decide_eq_true_eq]
          simpa [h] using ih

theorem containsHash_procUrl (s : GoStr) : containsHash (procUrl s) = false := by
  unfold procUrl
  split
  · exact containsHash_replaceHash s
  · next h => simpa using h

theorem procUrl_of_contains {s : GoStr} (h : containsHash s = true) :
    procUrl s = replaceHash s := by
  simp [procUrl, h]

theorem fetchResponse_url (pat : GoStr → Bool) (net : GoStr → Except GoStr GoStr)
    (url args : GoStr) :
    (FetchResponse pat net url args).resp.Url = procUrl url := by
  simp only [FetchResponse]
  split
  · rfl
  · split <;> split <;> rfl

theorem fetchResponse_dispatched (pat : GoStr → Bool)
    (net : GoStr → Except GoStr GoStr) (url args d : GoStr)
    (h : (FetchResponse pat net url args).dispatched = some d) :
    d = procUrl url := by
  simp only [FetchResponse] at h
  split at h
  · simp at h
  · split at h <;> split at h <;>
      (simp only [Option.some.injEq] at h; exact h.symm)

/-- C7: a literal hash in the input URL is replaced by percent-two-three
everywhere before validation and before any request is built: the Url field
of the response is the fully replaced URL (hence hash-free), and any URL
handed to the transport is that same replaced URL. -/
theorem c7_hash_encoding (pat : GoStr → Bool) (net : GoStr → Except GoStr GoStr)
    (url args : GoStr) (hhash : containsHash url = true) :
    (FetchResponse pat net url args).resp.Url = replaceHash url ∧
    containsHash (FetchResponse pat net url args).resp.Url = false ∧
    ∀ d, (FetchResponse pat net url args).dispatched = some d →
      d = replaceHash url := by
  refine ⟨?_, ?_, ?_⟩
  · rw [fetchResponse_url, procUrl_of_contains hhash]
  · rw [fetchResponse_url]
    exact containsHash_procUrl url
  · intro d hd
    rw [fetchResponse_dispatched pat net url args d hd, procUrl_of_contains hhash]

/-- C7 witness: the concrete URL with a hash is rewritten. -/
theorem c7_hash_encoding_witness :
    containsHash urlC7 = true ∧
    (FetchResponse truePat echoNet urlC7 []).resp.Url = replaceHash urlC7 := by
  refine ⟨by decide, ?_⟩
  exact (c7_hash_encoding truePat echoNet urlC7 [] (by decide)).1

theorem fetchResponse_invalid (pat : GoStr → Bool)
    (net : GoStr → Except GoStr GoStr) (url args : GoStr)
    (h : validateUrl pat (procUrl url) = false) :
    FetchResponse pat net url args =
      { resp := invalidResp url, dispatched := none } := by
  simp [FetchResponse, h, invalidResp]

theorem invalidResp_Error (url : GoStr) :
    (invalidResp url).Error = some invalidUrlMsg := rfl

theorem fetchLoop_invalid (net : Nat → GoStr → Except GoStr GoStr)
    (pat : GoStr → Bool) (url args : GoStr)
    (h : validateUrl pat (procUrl url) = false) :
    ∀ rem i, fetchLoop net pat url args i rem (invalidResp url) =
      { sent := [invalidResp url], attempts := rem, netCalls := 0 } := by
  intro rem
  induction rem with
  | zero => intro i; rfl
  | succ rem ih =>
      intro i
      simp only [fetchLoop, fetchResponse_invalid pat (net i) url args h,
        invalidResp_Error]
      rw [if_neg (by simp)]
      rw [ih (i + 1)]
      rfl

/-- C2, corrected: an invalid URL produces an error response with no network
dispatch on every attempt, but the retry loop of fetch does retry it like
any other error: retry plus one FetchResponse invocations happen in total,
none of them dispatches, and the single emitted response carries the
validation error. -/
theorem c2_invalid_url_retried (net : Nat → GoStr → Except GoStr GoStr)
    (pat : GoStr → Bool) (retry : Nat) (url args : GoStr)
    (h : validateUrl pat (procUrl url) = false) :
    fetch net pat retry url args =
      { sent := [invalidResp url], attempts := retry + 1, netCalls := 0 } := by
  simp only [fetch, fetchResponse_invalid pat (net 0) url args h, invalidResp_Error]
  rw [if_neg (by simp)]
  rw [fetchLoop_invalid net pat url args h retry 1]
  rfl

/-- C2 counterexample: with one configured retry, fetching the empty (hence
invalid) URL performs two FetchResponse attempts, not one, while making no
network call; the claim that the retry loop performs no further
FetchResponse attempts for an invalid-URL error is false. -/
theorem c2_counterexample :
    (fetch alwaysOkNet truePat 1 ([] : GoStr) ([] : GoStr)).attempts = 2 ∧
    (fetch alwaysOkNet truePat 1 ([] : GoStr) ([] : GoStr)).netCalls = 0 := by
  decide

/-- C2 witness: the corrected statement at the empty URL with one retry. -/
theorem c2_invalid_url_retried_witness :
    validateUrl truePat (procUrl []) = false ∧
    fetch alwaysOkNet truePat 1 [] [] =
      { sent := [invalidResp []], attempts := 2, netCalls := 0 } :=
  ⟨by decide, c2_invalid_url_retried alwaysOkNet truePat 1 [] [] (by decide)⟩

theorem fetchLoop_sent_length (net : Nat → GoStr → Except GoStr GoStr)
    (pat : GoStr → Bool) (url args : GoStr) :
    ∀ rem i last, (fetchLoop net pat url args i rem last).sent.length = 1 := by
  intro rem
  induction rem with
  | zero => intro i last; rfl
  | succ rem ih =>
      intro i last
      simp only [fetchLoop]
      split
      · rfl
      · simp [ih (i + 1)]

/-- C9: every invocation of the asynchronous fetch function writes exactly
one response to the result channel, for every URL, argument string,
transport oracle and retry bound. -/
theorem c9_exactly_one_response (net : Nat → GoStr → Except GoStr GoStr)
    (pat : GoStr → Bool) (retry : Nat) (url args : GoStr) :
    (fetch net pat retry url args).sent.length = 1 := by
  simp only [fetch]
  split
  · rfl
  · simp [fetchLoop_sent_length]

theorem fetchResponse_error_of_net (pat : GoStr → Bool)
    (net : GoStr → Except GoStr GoStr) (url args em : GoStr)
    (hvalid : validateUrl pat (procUrl url) = true)
    (hnet : net (procUrl url) = Except.error em) :
    (FetchResponse pat net url args).resp.Error = some em ∧
    (FetchResponse pat net url args).dispatched = some (procUrl url) := by
  simp only [FetchResponse]
  rw [if_neg (show ¬validateUrl pat (procUrl url) = false by simp [hvalid])]
  rw [hnet]
  exact ⟨rfl, rfl⟩

theorem fetchResponse_ok_of_net (pat : GoStr → Bool)
    (net : GoStr → Except GoStr GoStr) (url args body : GoStr)
    (hvalid : validateUrl pat (procUrl url) = true)
    (hnet : net (procUrl url) = Except.ok body) :
    (FetchResponse pat net url args).resp.Error = none ∧
    (FetchResponse pat net url args).dispatched = some (procUrl url) := by
  simp only [FetchResponse]
  rw [if_neg (show ¬validateUrl pat (procUrl url) = false by simp [hvalid])]
  rw [hnet]
  dsimp only
  refine ⟨?_, rfl⟩
  split <;> rfl

theorem thresholdNet_lt (e : Nat → GoStr) (body : GoStr) (N i : Nat)
    (u : GoStr) (h : i < N) : thresholdNet e body N i u = Except.error (e i) := by
  simp [thresholdNet, h]

theorem thresholdNet_ge (e : Nat → GoStr) (body : GoStr) (N i : Nat)
    (u : GoStr) (h : N ≤ i) : thresholdNet e body N i u = Except.ok body := by
  simp [thresholdNet, Nat.not_lt_of_le h]

theorem fetchLoop_threshold_allfail (e : Nat → GoStr) (body : GoStr)
    (N : Nat) (pat : GoStr → Bool) (url args : GoStr)
    (hvalid : validateUrl pat (procUrl url) = true) :
    ∀ rem i last, i + rem ≤ N →
      (fetchLoop (thresholdNet e body N) pat url args i rem last).attempts = rem ∧
      (fetchLoop (thresholdNet e body N) pat url args i rem last).netCalls = rem ∧
      (fetchLoop (thresholdNet e body N) pat url args i rem last).sent.map
          ResponseType.Error =
        [if rem = 0 then last.Error else some (e (i + rem - 1))] := by
  intro rem
  induction rem with
  | zero => intro i last _; simp [fetchLoop]
  | succ rem ih =>
      intro i last hle
      have hi : i < N := by omega
      have herr := fetchResponse_error_of_net pat (thresholdNet e body N i)
        url args (e i) hvalid (thresholdNet_lt e body N i (procUrl url) hi)
      simp only [fetchLoop, herr.1, herr.2]
      rw [if_neg (by simp)]
      obtain ⟨ha, hn, hs⟩ := ih (i + 1) (FetchResponse pat (thresholdNet e body N i) url args).resp (by omega)
      refine ⟨by simp [ha], by simp [hn], ?_⟩
      simp only [hs]
      rcases Nat.eq_zero_or_pos rem with h0 | hpos
      · subst h0
        simp [herr.1]
      · have h1 : ¬rem = 0 := by omega
        have h2 : ¬rem + 1 = 0 := by omega
        simp only [if_neg h1, if_neg h2]
        have harith : i + 1 + rem - 1 = i + (rem + 1) - 1 := by omega
        rw [harith]

theorem fetchLoop_threshold_success (e : Nat → GoStr) (body : GoStr)
    (N : Nat) (pat : GoStr → Bool) (url args : GoStr)
    (hvalid : validateUrl pat (procUrl url) = true) :
    ∀ rem i last, i ≤ N → N < i + rem →
      (fetchLoop (thresholdNet e body N) pat url args i rem last).attempts = N + 1 - i ∧
      (fetchLoop (thresholdNet e body N) pat url args i rem last).netCalls = N + 1 - i ∧
      (fetchLoop (thresholdNet e body N) pat url args i rem last).sent.map
          ResponseType.Error = [none] := by
  intro rem
  induction rem with
  | zero => intro i last h1 h2; omega
  | succ rem ih =>
      intro i last h1 h2
      rcases Nat.lt_or_ge i N with hi | hi
      · have herr := fetchResponse_error_of_net pat (thresholdNet e body N i)
          url args (e i) hvalid (thresholdNet_lt e body N i (procUrl url) hi)
        simp only [fetchLoop, herr.1, herr.2]
        rw [if_neg (by simp)]
        obtain ⟨ha, hn, hs⟩ := ih (i + 1) (FetchResponse pat (thresholdNet e body N i) url args).resp (by omega) (by omega)
        refine ⟨?_, ?_, by simpa using hs⟩
        · simp only [ha]; omega
        · simp only [hn]; simp; omega
      · have hok := fetchResponse_ok_of_net pat (thresholdNet e body N i)
          url args body hvalid (thresholdNet_ge e body N i (procUrl url) hi)
        have hiN : i = N := by omega
        simp only [fetchLoop, hok.1, hok.2]
        rw [if_pos trivial]
        refine ⟨by simp; omega, by simp; omega, by simp [hok.1]⟩

/-- C3: against a transport failing on the first N attempts and succeeding
thereafter, with N at most the retry bound the single delivered response has
no error (after N plus one attempts); with the transport failing on every
attempt, exactly retry plus one attempts are made and the delivered response
carries the error of the last attempt. -/
theorem c3_retry_bound (e : Nat → GoStr) (body : GoStr) (pat : GoStr → Bool)
    (retry N : Nat) (url args : GoStr)
    (hvalid : validateUrl pat (procUrl url) = true) :
    (N ≤ retry →
      (fetch (thresholdNet e body N) pat retry url args).sent.map
          ResponseType.Error = [none] ∧
      (fetch (thresholdNet e body N) pat retry url args).attempts = N + 1) ∧
    (retry < N →
      (fetch (thresholdNet e body N) pat retry url args).sent.map
          ResponseType.Error = [some (e retry)] ∧
      (fetch (thresholdNet e body N) pat retry url args).attempts = retry + 1) := by
  rcases Nat.eq_zero_or_pos N with h0 | hN
  · subst h0
    have hok := fetchResponse_ok_of_net pat (thresholdNet e body 0 0)
      url args body hvalid (thresholdNet_ge e body 0 0 (procUrl url) (Nat.zero_le 0))
    constructor
    · intro _
      simp only [fetch, hok.1]
      rw [if_pos trivial]
      exact ⟨by simp [hok.1], by simp⟩
    · intro h; omega
  · have herr := fetchResponse_error_of_net pat (thresholdNet e body N 0)
      url args (e 0) hvalid (thresholdNet_lt e body N 0 (procUrl url) hN)
    constructor
    · intro hle
      obtain ⟨ha, hn, hs⟩ := fetchLoop_threshold_success e body N pat url args
        hvalid retry 1 (FetchResponse pat (thresholdNet e body N 0) url args).resp
        (by omega) (by omega)
      simp only [fetch, herr.1]
      rw [if_neg (by simp)]
      exact ⟨by simpa using hs, by simp [ha]⟩
    · intro hlt
      obtain ⟨ha, hn, hs⟩ := fetchLoop_threshold_allfail e body N pat url args
        hvalid retry 1 (FetchResponse pat (thresholdNet e body N 0) url args).resp
        (by omega)
      simp only [fetch, herr.1]
      rw [if_neg (by simp)]
      refine ⟨?_, by simp [ha]⟩
      simp only [hs]
      rcases Nat.eq_zero_or_pos retry with hr | hr
      · subst hr
        simp [herr.1]
      · have h1 : ¬retry = 0 := by omega
        simp only [if_neg h1]
        congr 3
        omega

/-- C3 witness: both branches instantiated; immediate success with no
retries, and two failing attempts against a one-retry bound. -/
theorem c3_retry_bound_witness :
    ((fetch (thresholdNet (fun _ => "x".data) "b".data 0) truePat 0
        "u".data []).sent.map ResponseType.Error = [none] ∧
      (fetch (thresholdNet (fun _ => "x".data) "b".data 0) truePat 0
        "u".data []).attempts = 1) ∧
    ((fetch (thresholdNet (fun _ => "x".data) "b".data 3) truePat 1
        "u".data []).sent.map ResponseType.Error = [some "x".data] ∧
      (fetch (thresholdNet (fun _ => "x".data) "b".data 3) truePat 1
        "u".data []).attempts = 2) := by
  constructor
  · exact (c3_retry_bound (fun _ => "x".data) "b".data truePat 0 0
      "u".data [] (by decide)).1 (by decide)
  · exact (c3_retry_bound (fun _ => "x".data) "b".data truePat 1 3
      "u".data [] (by decide)).2 (by decide)

/-! ## Certificate manager claims -/

/-- C6: the lock taken by GetCerts is a fresh function-local mutex, so two
concurrent calls that both evaluate the refresh condition before either
stores a bundle both invoke tlsCerts: the schedule check-A, check-B, load-A,
load-B performs two underlying loads, not the single load the specification
requires. -/
theorem c6_local_mutex_double_load :
    (runRace true [true, false, true, false] (.check, .check)
      { certs := none, loads := 0 }).2.2.loads = 2 := by
  decide

/-- C4: on a refresh failure with a previously loaded bundle, the caller
receives exactly that bundle and the window start is moved to the 600-second
grace instant only when the certificates own expiry lies strictly beyond it
(in which case the new window start stays below the actual expiry), else the
window start is the current instant; with no previous bundle the failure is
fatal. -/
theorem c4_refresh_failure (t : TLSCertsManager) (old : List Cert)
    (now interval : Int) (msg : String) :
    (t.Certs = some old → now - t.Expire > interval →
      ∃ t2, GetCerts t now interval (.error msg) = some (t2, some old) ∧
        t2.Certs = some old ∧
        (CertExpire old > now + 600 →
          t2.Expire = now + 600 ∧ t2.Expire < CertExpire old) ∧
        (¬CertExpire old > now + 600 → t2.Expire = now)) ∧
    (t.Certs = none → GetCerts t now interval (.error msg) = none) := by
  constructor
  · intro hsome hexp
    unfold GetCerts
    rw [if_pos (Or.inr hexp)]
    rw [hsome]
    dsimp only
    by_cases hce : CertExpire old > now + 600
    · rw [if_pos hce]
      exact ⟨_, rfl, rfl,
        fun _ => ⟨rfl, show now + 600 < CertExpire old by omega⟩,
        fun hc => absurd hce hc⟩
    · rw [if_neg hce]
      exact ⟨_, rfl, rfl, fun hc => absurd hc hce, fun _ => rfl⟩
  · intro hnone
    unfold GetCerts
    rw [if_pos (Or.inl hnone)]
    rw [hnone]

/-- C4 witness: a failing refresh over a cached bundle expiring at 10000
still serves the bundle, and a failing first load is fatal. -/
theorem c4_refresh_failure_witness :
    (GetCerts { Certs := some [{ notAfter := some 10000 }], Expire := 0 }
        100 50 (.error "boom")).isSome = true ∧
    GetCerts { Certs := none, Expire := 0 } 100 50 (.error "boom") = none := by
  constructor
  · obtain ⟨t2, h1, -⟩ :=
      (c4_refresh_failure { Certs := some [{ notAfter := some 10000 }], Expire := 0 }
        [{ notAfter := some 10000 }] 100 50 "boom").1 rfl (by decide)
    rw [h1]
    rfl
  · exact (c4_refresh_failure { Certs := none, Expire := 0 } [] 100 50 "boom").2 rfl

/-! ## Mongo accessor claims -/

/-- C10: the dotted-key accessors are partially safe: a present final
component of the wrong type yields the zero value with an error, while an
absent or non-record intermediate component hits the unchecked assertion and
panics, for each of the string, int and int64 variants. -/
theorem c10_accessor_partial_safety :
    (∀ rec k, recGet rec k ≠ .vNil → (∀ s, recGet rec k ≠ .vStr s) →
      getStringValueAux rec [k] = .err "" ("Unable to cast value for key " ++ k)) ∧
    (∀ rec k k2 ks, (∀ r, recGet rec k ≠ .vRec r) →
      getStringValueAux rec (k :: k2 :: ks) = .panicked) ∧
    (∀ rec k, recGet rec k ≠ .vNil → (∀ n, recGet rec k ≠ .vInt n) →
      getIntValueAux rec [k] = .err 0 ("Unable to cast value for key " ++ k)) ∧
    (∀ rec k k2 ks, (∀ r, recGet rec k ≠ .vRec r) →
      getIntValueAux rec (k :: k2 :: ks) = .panicked) ∧
    (∀ rec k, recGet rec k ≠ .vNil → (∀ n, recGet rec k ≠ .vInt64 n) →
      getInt64ValueAux rec [k] = .err 0 ("Unable to cast value for key " ++ k)) ∧
    (∀ rec k k2 ks, (∀ r, recGet rec k ≠ .vRec r) →
      getInt64ValueAux rec (k :: k2 :: ks) = .panicked) := by
  refine ⟨?_, ?_, ?_, ?_, ?_, ?_⟩
  · intro rec k _ hstr
    cases h : recGet rec k with
    | vStr s => exact absurd h (hstr s)
    | vNil => simp [getStringValueAux, h]
    | vInt n => simp [getStringValueAux, h]
    | vInt64 n => simp [getStringValueAux, h]
    | vNum x => simp [getStringValueAux, h]
    | vRec f => simp [getStringValueAux, h]
    | vRecList rs => simp [getStringValueAux, h]
    | vList vs => simp [getStringValueAux, h]
  · intro rec k k2 ks hrec
    cases h : recGet rec k with
    | vRec f => exact absurd h (hrec f)
    | vNil => simp [getStringValueAux, h]
    | vStr s => simp [getStringValueAux, h]
    | vInt n => simp [getStringValueAux, h]
    | vInt64 n => simp [getStringValueAux, h]
    | vNum x => simp [getStringValueAux, h]
    | vRecList rs => simp [getStringValueAux, h]
    | vList vs => simp [getStringValueAux, h]
  · intro rec k _ hint
    cases h : recGet rec k with
    | vInt n => exact absurd h (hint n)
    | vNil => simp [getIntValueAux, h]
    | vStr s => simp [getIntValueAux, h]
    | vInt64 n => simp [getIntValueAux, h]
    | vNum x => simp [getIntValueAux, h]
    | vRec f => simp [getIntValueAux, h]
    | vRecList rs => simp [getIntValueAux, h]
    | vList vs => simp [getIntValueAux, h]
  · intro rec k k2 ks hrec
    cases h : recGet rec k with
    | vRec f => exact absurd h (hrec f)
    | vNil => simp [getIntValueAux, h]
    | vStr s => simp [getIntValueAux, h]
    | vInt n => simp [getIntValueAux, h]
    | vInt64 n => simp [getIntValueAux, h]
    | vNum x => simp [getIntValueAux, h]
    | vRecList rs => simp [getIntValueAux, h]
    | vList vs => simp [getIntValueAux, h]
  · intro rec k _ hint
    cases h : recGet rec k with
    | vInt64 n => exact absurd h (hint n)
    | vNil => simp [getInt64ValueAux, h]
    | vStr s => simp [getInt64ValueAux, h]
    | vInt n => simp [getInt64ValueAux, h]
    | vNum x => simp [getInt64ValueAux, h]
    | vRec f => simp [getInt64ValueAux, h]
    | vRecList rs => simp [getInt64ValueAux, h]
    | vList vs => simp [getInt64ValueAux, h]
  · intro rec k k2 ks hrec
    cases h : recGet rec k with
    | vRec f => exact absurd h (hrec f)
    | vNil => simp [getInt64ValueAux, h]
    | vStr s => simp [getInt64ValueAux, h]
    | vInt n => simp [getInt64ValueAux, h]
    | vInt64 n => simp [getInt64ValueAux, h]
    | vNum x => simp [getInt64ValueAux, h]
    | vRecList rs => simp [getInt64ValueAux, h]
    | vList vs => simp [getInt64ValueAux, h]

/-- C10 witness: a numeric leaf read as a string errs, and a dotted path
through that leaf panics. -/
theorem c10_accessor_partial_safety_witness :
    getStringValueAux [("a", Value.vNum 3)] ["a"] =
      .err "" ("Unable to cast value for key " ++ "a") ∧
    getStringValueAux [("a", Value.vNum 3)] ["a", "b"] = .panicked := by
  have h : recGet [("a", Value.vNum 3)] "a" = Value.vNum 3 := rfl
  constructor
  · refine c10_accessor_partial_safety.1 [("a", Value.vNum 3)] "a" ?_ ?_
    · rw [h]; intro hc; exact Value.noConfusion hc
    · intro s; rw [h]; intro hc; exact Value.noConfusion hc
  · refine c10_accessor_partial_safety.2.1 [("a", Value.vNum 3)] "a" "b" [] ?_
    intro r; rw [h]; intro hc; exact Value.noConfusion hc

/-! ## Run and lumi merge lemmas -/

theorem rmapLookup_rmapAppend (m : List (Int × List Int)) (k : Int)
    (v : List Int) (k2 : Int) :
    rmapLookup (rmapAppend m k v) k2 =
      if k2 = k then some ((rmapLookup m k).getD [] ++ v)
      else rmapLookup m k2 := by
  unfold rmapAppend
  by_cases hk : m.any (fun p => p.1 == k) = true
  · rw [if_pos hk]
    unfold rmapLookup
    rw [List.find?_map]
    have hfst : ((fun p : Int × List Int => p.1 == k2) ∘
        fun p : Int × List Int => if p.1 == k then (p.1, p.2 ++ v) else p) =
        fun p : Int × List Int => p.1 == k2 := by
      funext p
      by_cases h : (p.1 == k) = true <;> simp [Function.comp, h]
    rw [hfst]
    by_cases hkk : k2 = k
    · subst hkk
      obtain ⟨q, hq⟩ := Option.isSome_iff_exists.mp
        (List.find?_isSome.mpr (List.any_eq_true.mp hk))
      have hqk : (q.1 == k2) = true :=
        @List.find?_some _ (fun p => p.1 == k2) q m hq
      rw [hq, if_pos rfl]
      have hqe2 : q.1 = k2 := by simpa using hqk
      simp [hqk, hqe2]
    · rw [if_neg hkk]
      cases hq : m.find? (fun p => p.1 == k2) with
      | none => simp
      | some q =>
          have hqk2 : (q.1 == k2) = true :=
            @List.find?_some _ (fun p => p.1 == k2) q m hq
          have hqe : q.1 = k2 := by simpa using hqk2
          have hqknot : (q.1 == k) = false := by
            simp [hqe]
            exact hkk
          have hne : ¬q.1 = k := by
            rw [hqe]
            exact hkk
          simp [hqknot, hne]
  · rw [if_neg hk]
    unfold rmapLookup
    rw [List.find?_append]
    by_cases hkk : k2 = k
    · subst hkk
      have hnone : m.find? (fun p => p.1 == k2) = none := by
        rw [List.find?_eq_none]
        intro x hx hpx
        exact hk (List.any_eq_true.mpr ⟨x, hx, hpx⟩)
      rw [hnone, if_pos rfl]
      simp [List.find?, hnone]
    · rw [if_neg hkk]
      have hlast : List.find? (fun p : Int × List Int => p.1 == k2) [(k, v)] = none := by
        have : ((k, v).1 == k2) = false := by
          simp
          exact fun h => hkk h.symm
        simp [List.find?, this]
      rw [hlast]
      simp

theorem rmapKeys_rmapAppend (m : List (Int × List Int)) (k : Int) (v : List Int) :
    rmapKeys (rmapAppend m k v) =
      if k ∈ rmapKeys m then rmapKeys m else rmapKeys m ++ [k] := by
  unfold rmapAppend rmapKeys
  by_cases hk : m.any (fun p => p.1 == k) = true
  · have hmem : k ∈ m.map Prod.fst := by
      obtain ⟨x, hx, hpx⟩ := List.any_eq_true.mp hk
      exact List.mem_map.mpr ⟨x, hx, by simpa using hpx⟩
    rw [if_pos hk, if_pos hmem, List.map_map]
    apply List.map_congr_left
    intro p _
    by_cases h : (p.1 == k) = true <;> simp [Function.comp, h]
  · have hmem : k ∉ m.map Prod.fst := by
      intro hmemk
      obtain ⟨x, hx, hfx⟩ := List.mem_map.mp hmemk
      exact hk (List.any_eq_true.mpr ⟨x, hx, by simp [hfx]⟩)
    rw [if_neg hk, if_neg hmem]
    simp

theorem mem_rmapKeys_of_lookup (m : List (Int × List Int)) (k : Int)
    (l : List Int) (h : rmapLookup m k = some l) : k ∈ rmapKeys m := by
  unfold rmapLookup at h
  obtain ⟨q, hq, -⟩ := Option.map_eq_some'.mp h
  have hqk0 : (q.1 == k) = true :=
    @List.find?_some _ (fun p => p.1 == k) q m hq
  have hqk : q.1 = k := by simpa using hqk0
  exact List.mem_map.mpr ⟨q, List.mem_of_find?_eq_some hq, hqk⟩

theorem buildRmap_nil (m : List (Int × List Int)) : buildRmap m [] = m := rfl

theorem buildRmap_cons (m : List (Int × List Int)) (p : Int × List Int)
    (prs : List (Int × List Int)) :
    buildRmap m (p :: prs) = buildRmap (rmapAppend m p.1 p.2) prs := rfl

theorem rmapLookup_buildRmap (prs : List (Int × List Int)) :
    ∀ (m : List (Int × List Int)) (k : Int),
      rmapLookup (buildRmap m prs) k =
        match rmapLookup m k with
        | some w => some (w ++ contrib prs k)
        | none => if k ∈ rmapKeys prs then some (contrib prs k) else none := by
  induction prs with
  | nil =>
      intro m k
      cases h : rmapLookup m k <;> simp [buildRmap_nil, contrib, rmapKeys, h]
  | cons p prs ih =>
      intro m k
      obtain ⟨r, vv⟩ := p
      rw [buildRmap_cons]
      rw [ih (rmapAppend m r vv) k]
      rw [rmapLookup_rmapAppend]
      have hcontrib : contrib ((r, vv) :: prs) k =
          (if r = k then vv else []) ++ contrib prs k := by
        simp [contrib]
      have hkeys : rmapKeys ((r, vv) :: prs) = r :: rmapKeys prs := rfl
      by_cases hkr : k = r
      · subst hkr
        rw [if_pos rfl]
        cases h : rmapLookup m k with
        | some w =>
            simp only [h, Option.getD_some, hcontrib, if_pos rfl]
            simp [List.append_assoc]
        | none =>
            simp only [h, Option.getD_none, List.nil_append, hcontrib, if_pos rfl,
              hkeys]
            simp
      · rw [if_neg hkr]
        have hc2 : contrib ((r, vv) :: prs) k = contrib prs k := by
          rw [hcontrib, if_neg (show ¬r = k from fun hh => hkr hh.symm)]
          simp
        have hmem2 : (k ∈ rmapKeys ((r, vv) :: prs)) ↔ k ∈ rmapKeys prs := by
          rw [hkeys]
          simp [List.mem_cons, hkr]
        rw [hc2]
        cases h : rmapLookup m k with
        | some w => simp only [h]
        | none =>
            simp only [h, hmem2]

theorem rmapKeys_buildRmap_of_mem (prs : List (Int × List Int)) :
    ∀ (m : List (Int × List Int)), (∀ p ∈ prs, p.1 ∈ rmapKeys m) →
      rmapKeys (buildRmap m prs) = rmapKeys m := by
  induction prs with
  | nil => intro m _; rfl
  | cons p prs ih =>
      intro m hmem
      obtain ⟨r, vv⟩ := p
      rw [buildRmap_cons]
      have hr : r ∈ rmapKeys m := hmem (r, vv) (List.mem_cons_self _ _)
      have hkeys : rmapKeys (rmapAppend m r vv) = rmapKeys m := by
        rw [rmapKeys_rmapAppend, if_pos hr]
      rw [ih (rmapAppend m r vv) (by
        intro q hq
        rw [hkeys]
        exact hmem q (List.mem_cons_of_mem _ hq))]
      exact hkeys

theorem extractAll_append (xs ys : List DASRecord) :
    extractAll (xs ++ ys) =
      (extractAll xs).bind (fun a => (extractAll ys).map (fun b => a ++ b)) := by
  induction xs with
  | nil =>
      simp only [List.nil_append, extractAll, Option.bind_some]
      cases h : extractAll ys <;> simp [h]
  | cons r xs ih =>
      have h1 : extractAll ((r :: xs) ++ ys) =
          match extractRL r with
          | some p => (extractAll (xs ++ ys)).map (fun ps => p :: ps)
          | none => none := rfl
      have h2 : extractAll (r :: xs) =
          match extractRL r with
          | some p => (extractAll xs).map (fun ps => p :: ps)
          | none => none := rfl
      rw [h1, h2]
      cases hr : extractRL r with
      | none => rfl
      | some p =>
          dsimp only
          rw [ih]
          cases hx : extractAll xs with
          | none => rfl
          | some as =>
              cases hy : extractAll ys with
              | none => rfl
              | some bs => rfl

/-- C1 counterexample: merging a one-record set with itself does not
reproduce the same lumi list per run: run 1 maps to [1, 1] after the doubled
merge but to [1] after the single merge, because OrderByRunLumis appends
lumi lists instead of taking a set union. -/
theorem c1_counterexample :
    OrderByRunLumisMap [r1bare, r1bare] ≠ OrderByRunLumisMap [r1bare] ∧
    rmapLookup ((OrderByRunLumisMap [r1bare, r1bare]).getD []) 1 = some [1, 1] ∧
    rmapLookup ((OrderByRunLumisMap [r1bare]).getD []) 1 = some [1] := by
  refine ⟨by decide, by decide, by decide⟩

/-- C1, corrected: applying OrderByRunLumis to the concatenation of a record
set with itself yields the same runs (same key sequence) and, per run, the
single-merge lumi list appended to itself — equal to the single merge as a
set of lumis per run, but not as a list, since lumi sections are concatenated
rather than unioned. -/
theorem c1_merge_double (records : List DASRecord)
    (m m2 : List (Int × List Int))
    (h1 : OrderByRunLumisMap records = some m)
    (h2 : OrderByRunLumisMap (records ++ records) = some m2) :
    rmapKeys m2 = rmapKeys m ∧
    (∀ run, rmapLookup m2 run = (rmapLookup m run).map (fun l => l ++ l)) ∧
    (∀ run l l2, rmapLookup m run = some l → rmapLookup m2 run = some l2 →
      ∀ x, x ∈ l2 ↔ x ∈ l) := by
  obtain ⟨prs, hprs, hm⟩ := Option.map_eq_some'.mp h1
  have hdouble : extractAll (records ++ records) = some (prs ++ prs) := by
    rw [extractAll_append, hprs]
    rfl
  have hm2 : m2 = buildRmap [] (prs ++ prs) := by
    unfold OrderByRunLumisMap at h2
    rw [hdouble] at h2
    simpa using h2.symm
  have hm2eq : m2 = buildRmap m prs := by
    rw [hm2, ← hm]
    unfold buildRmap
    rw [List.foldl_append]
  have hmlook : ∀ k, rmapLookup m k =
      if k ∈ rmapKeys prs then some (contrib prs k) else none := by
    intro k
    rw [← hm]
    rw [rmapLookup_buildRmap prs [] k]
    rfl
  have hlook2 : ∀ run, rmapLookup m2 run = (rmapLookup m run).map (fun l => l ++ l) := by
    intro run
    rw [hm2eq, rmapLookup_buildRmap prs m run]
    cases h : rmapLookup m run with
    | some w =>
        have hw : w = contrib prs run := by
          have hx := hmlook run
          rw [h] at hx
          by_cases hmem : run ∈ rmapKeys prs
          · rw [if_pos hmem] at hx
            exact Option.some.inj hx
          · rw [if_neg hmem] at hx
            exact absurd hx (by simp)
        simp [hw]
    | none =>
        have hnot : run ∉ rmapKeys prs := by
          intro hmem
          have := hmlook run
          rw [h, if_pos hmem] at this
          exact absurd this.symm (by simp)
        simp [hnot]
  refine ⟨?_, hlook2, ?_⟩
  · rw [hm2eq]
    apply rmapKeys_buildRmap_of_mem
    intro p hp
    have hpmem : p.1 ∈ rmapKeys prs := List.mem_map.mpr ⟨p, hp, rfl⟩
    exact mem_rmapKeys_of_lookup m p.1 (contrib prs p.1)
      (by rw [hmlook p.1, if_pos hpmem])
  · intro run l l2 hl hl2
    have := hlook2 run
    rw [hl, hl2] at this
    have hl2eq : l2 = l ++ l := by simpa using this
    intro x
    rw [hl2eq]
    simp [List.mem_append, or_self]

/-- C1 witness: the corrected statement at the one-record set with run 1 and
lumi list [1]. -/
theorem c1_merge_double_witness :
    rmapKeys [((1 : Int), [(1 : Int), 1])] = rmapKeys [((1 : Int), [(1 : Int)])] ∧
    rmapLookup [((1 : Int), [(1 : Int), 1])] 1 =
      (rmapLookup [((1 : Int), [(1 : Int)])] 1).map (fun l => l ++ l) :=
  ⟨(c1_merge_double [r1bare] [(1, [1])] [(1, [1, 1])] (by decide) (by decide)).1,
   (c1_merge_double [r1bare] [(1, [1])] [(1, [1, 1])] (by decide) (by decide)).2.1 1⟩

/-! ## Relation wrapping lemmas -/

theorem recSet_wrapped (row : DASRecord) (k : String) (v : Value)
    (hrow : ∀ kv ∈ row, isSingletonRecList kv.2 = true)
    (hv : isSingletonRecList v = true) :
    ∀ kv ∈ recSet row k v, isSingletonRecList kv.2 = true := by
  intro kv hkv
  unfold recSet at hkv
  split at hkv
  · obtain ⟨kv0, hkv0, hmap⟩ := List.mem_map.mp hkv
    by_cases h : (kv0.1 == k) = true
    · rw [if_pos h] at hmap
      rw [← hmap]
      exact hv
    · rw [if_neg h] at hmap
      rw [← hmap]
      exact hrow kv0 hkv0
  · rcases List.mem_append.mp hkv with hmem | hmem
    · exact hrow kv hmem
    · have : kv = (k, v) := by simpa using hmem
      rw [this]
      exact hv

theorem fileRunLumiRow_loop_wrapped (keys : List String) :
    ∀ row : DASRecord, (∀ kv ∈ row, isSingletonRecList kv.2 = true) →
      ∀ rec : DASRecord, ∀ kv ∈ keys.foldl
        (fun row key =>
          if key == "run_num" then
            recSet row "run" (.vRecList [[("run_number", recGet rec key)]])
          else if key == "lumi_section_num" then
            recSet row "lumi" (.vRecList [[("number", recGet rec key)]])
          else if key == "logical_file_name" then
            recSet row "file" (.vRecList [[("name", recGet rec key)]])
          else row) row,
      isSingletonRecList kv.2 = true := by
  induction keys with
  | nil => intro row hrow rec kv hkv; exact hrow kv hkv
  | cons key keys ih =>
      intro row hrow rec kv hkv
      rw [List.foldl_cons] at hkv
      by_cases h1 : (key == "run_num") = true
      · rw [if_pos h1] at hkv
        exact ih _ (recSet_wrapped row "run"
          (.vRecList [[("run_number", recGet rec key)]]) hrow rfl) rec kv hkv
      · rw [if_neg h1] at hkv
        by_cases h2 : (key == "lumi_section_num") = true
        · rw [if_pos h2] at hkv
          exact ih _ (recSet_wrapped row "lumi"
            (.vRecList [[("number", recGet rec key)]]) hrow rfl) rec kv hkv
        · rw [if_neg h2] at hkv
          by_cases h3 : (key == "logical_file_name") = true
          · rw [if_pos h3] at hkv
            exact ih _ (recSet_wrapped row "file"
              (.vRecList [[("name", recGet rec key)]]) hrow rfl) rec kv hkv
          · rw [if_neg h3] at hkv
            exact ih _ hrow rec kv hkv

theorem recGet_mem_of_ne_nil (rec : DASRecord) (k : String)
    (h : recGet rec k ≠ .vNil) : ∃ kv ∈ rec, kv.2 = recGet rec k := by
  unfold recGet at h ⊢
  cases hf : rec.find? (fun kv => kv.1 == k) with
  | none =>
      rw [hf] at h
      exact absurd rfl h
  | some kv => exact ⟨kv, List.mem_of_find?_eq_some hf, rfl⟩

/-- C5 counterexample: feeding one filelumis record with run 1 and lumi list
[1] through file_run_lumi with the paired run and lumi keys routes the rows
through OrderByRunLumis, whose single output record stores a bare record
under run, not a single-element list of records. -/
theorem c5_counterexample :
    (file_run_lumi ["run_num", "lumi_section_num"] [flRec]).isSome = true ∧
    ((file_run_lumi ["run_num", "lumi_section_num"] [flRec]).getD []).length = 1 ∧
    isSingletonRecList
      (recGet (((file_run_lumi ["run_num", "lumi_section_num"] [flRec]).getD
        []).headD []) "run") = false ∧
    isBareRec
      (recGet (((file_run_lumi ["run_num", "lumi_section_num"] [flRec]).getD
        []).headD []) "run") = true := by
  exact ⟨rfl, rfl, rfl, rfl⟩

/-- C5, corrected: the rows built by the keys loop of file_run_lumi wrap
every stored relation value in a single-element list of records, but the
records emitted by OrderByRunLumis store bare records under both run and
lumi, so the uniform wrapping claim fails exactly on the run and lumi merge
output. -/
theorem c5_wrapping (keys : List String) (rec : DASRecord) (k : String)
    (records : List DASRecord) (out : List DASRecord) :
    (recGet (fileRunLumiRow keys rec) k ≠ .vNil →
      isSingletonRecList (recGet (fileRunLumiRow keys rec) k) = true) ∧
    (OrderByRunLumis records = some out →
      ∀ r ∈ out, isBareRec (recGet r "run") = true ∧
        isBareRec (recGet r "lumi") = true) := by
  constructor
  · intro hne
    obtain ⟨kv, hkv, hval⟩ := recGet_mem_of_ne_nil _ k hne
    rw [← hval]
    exact fileRunLumiRow_loop_wrapped keys [] (by intro kv0 hkv0; cases hkv0)
      rec kv hkv
  · intro hout r hr
    unfold OrderByRunLumis at hout
    obtain ⟨m, -, hm⟩ := Option.map_eq_some'.mp hout
    rw [← hm] at hr
    obtain ⟨p, -, hp⟩ := List.mem_map.mp hr
    rw [← hp]
    exact ⟨rfl, rfl⟩

/-- C5 witness: the corrected statement at a concrete row and at the
one-record merge output. -/
theorem c5_wrapping_witness :
    isSingletonRecList (recGet (fileRunLumiRow ["run_num"] flRec) "run") = true ∧
    (isBareRec (recGet (runLumiRecord (1, [1])) "run") = true ∧
      isBareRec (recGet (runLumiRecord (1, [1])) "lumi") = true) := by
  constructor
  · refine (c5_wrapping ["run_num"] flRec "run" [] []).1 ?_
    rw [show recGet (fileRunLumiRow ["run_num"] flRec) "run" =
      Value.vRecList [[("run_number", Value.vNum 1)]] from rfl]
    intro hc
    exact Value.noConfusion hc
  · refine (c5_wrapping [] [] "run" [r1bare] [runLumiRecord (1, [1])]).2 ?_
      (runLumiRecord (1, [1])) ?_
    · rfl
    · exact List.mem_singleton.mpr rfl

/-! ## Worker queue lemmas -/

theorem qget_eq_getElem (q : List UrlRequest) (i : Nat) (h : i < q.length) :
    qget q i = q.get ⟨i, h⟩ := by
  unfold qget
  rw [List.getD_eq_getElem?_getD, List.getElem?_eq_getElem h]
  rfl

theorem length_qswap (q : List UrlRequest) (i j : Nat) :
    (qswap q i j).length = q.length := by
  unfold qswap
  simp

theorem qget_qswap_left (q : List UrlRequest) (i j : Nat)
    (hi : i < q.length) (hj : j < q.length) :
    qget (qswap q i j) i = qget q j := by
  unfold qswap qget
  simp only [List.getD_eq_getElem?_getD, List.getElem?_set, List.length_set]
  by_cases hji : j = i
  · subst hji
    rw [if_pos rfl, if_pos hj]
    rfl
  · rw [if_neg hji, if_pos trivial, if_pos hi]
    rfl

theorem qget_qswap_right (q : List UrlRequest) (i j : Nat)
    (hj : j < q.length) :
    qget (qswap q i j) j = qget q i := by
  unfold qswap qget
  simp only [List.getD_eq_getElem?_getD, List.getElem?_set, List.length_set]
  rw [if_pos trivial, if_pos hj]
  rfl

theorem qget_qswap_other (q : List UrlRequest) (i j k : Nat)
    (hki : k ≠ i) (hkj : k ≠ j) :
    qget (qswap q i j) k = qget q k := by
  unfold qswap qget
  simp only [List.getD_eq_getElem?_getD, List.getElem?_set, List.length_set]
  rw [if_neg (fun hh => hkj hh.symm), if_neg (fun hh => hki hh.symm)]

theorem qget_append_lt (q : List UrlRequest) (x : UrlRequest) (c : Nat)
    (h : c < q.length) : qget (q ++ [x]) c = qget q c := by
  unfold qget
  rw [List.getD_eq_getElem?_getD, List.getD_eq_getElem?_getD,
    List.getElem?_append, if_pos h]

theorem qget_take (l : List UrlRequest) (n k : Nat) (h : k < n) :
    qget (l.take n) k = qget l k := by
  unfold qget
  rw [List.getD_eq_getElem?_getD, List.getD_eq_getElem?_getD,
    List.getElem?_take, if_pos h]

theorem pickChild_bounds (q : List UrlRequest) (i n : Nat) (h : 2 * i + 1 < n) :
    i < pickChild q i n ∧ pickChild q i n < n := by
  unfold pickChild
  split <;> omega

theorem pickChild_parent (q : List UrlRequest) (i n : Nat) :
    (pickChild q i n - 1) / 2 = i := by
  unfold pickChild
  split <;> omega

theorem pickChild_min (q : List UrlRequest) (i n : Nat) (_h : 2 * i + 1 < n) :
    ∀ c, 0 < c → c < n → (c - 1) / 2 = i →
      (qget q (pickChild q i n)).ts ≤ (qget q c).ts := by
  intro c hc0 hcn hcp
  have hc : c = 2 * i + 1 ∨ c = 2 * i + 2 := by omega
  unfold pickChild
  split
  · next hcond =>
      rcases hc with hh | hh <;> subst hh
      · exact le_of_lt hcond.2
      · exact le_refl _
  · next hcond =>
      rcases hc with hh | hh <;> subst hh
      · exact le_refl _
      · exact le_of_not_lt (fun hlt => hcond ⟨hcn, hlt⟩)

theorem length_upHeap (j : Nat) : ∀ q : List UrlRequest,
    (upHeap q j).length = q.length := by
  induction j using Nat.strong_induction_on with
  | _ j ih =>
      intro q
      rw [upHeap]
      by_cases hj : j = 0
      · rw [dif_pos hj]
      · rw [dif_neg hj]
        dsimp only
        split
        · rw [ih ((j - 1) / 2) (by omega), length_qswap]
        · rfl

theorem length_downHeap (m : Nat) : ∀ (q : List UrlRequest) (i n : Nat),
    n - i ≤ m → (downHeap q i n).length = q.length := by
  induction m with
  | zero =>
      intro q i n hm
      rw [downHeap]
      rw [dif_neg (by omega)]
  | succ m ih =>
      intro q i n hm
      rw [downHeap]
      by_cases hlt : 2 * i + 1 < n
      · rw [dif_pos hlt]
        dsimp only
        split
        · have hb := pickChild_bounds q i n hlt
          rw [ih (qswap q i (pickChild q i n)) (pickChild q i n) n (by omega),
            length_qswap]
        · rfl
      · rw [dif_neg hlt]

theorem qget_downHeap_ge (m : Nat) : ∀ (q : List UrlRequest) (i n k : Nat),
    n - i ≤ m → n ≤ k → qget (downHeap q i n) k = qget q k := by
  induction m with
  | zero =>
      intro q i n k hm hk
      rw [downHeap, dif_neg (by omega)]
  | succ m ih =>
      intro q i n k hm hk
      rw [downHeap]
      by_cases hlt : 2 * i + 1 < n
      · rw [dif_pos hlt]
        dsimp only
        split
        · have hb := pickChild_bounds q i n hlt
          rw [ih (qswap q i (pickChild q i n)) (pickChild q i n) n k (by omega) hk]
          exact qget_qswap_other q i (pickChild q i n) k (by omega) (by omega)
        · rfl
      · rw [dif_neg hlt]

theorem isHeapN_root_le (q : List UrlRequest) (n : Nat) (hq : IsHeapN q n) :
    ∀ j, j < n → (qget q 0).ts ≤ (qget q j).ts := by
  intro j
  induction j using Nat.strong_induction_on with
  | _ j ih =>
      intro hj
      rcases Nat.eq_zero_or_pos j with h0 | hpos
      · subst h0
        exact le_refl _
      · exact le_trans (ih ((j - 1) / 2) (by omega) (by omega)) (hq j hpos hj)

theorem upInv_step (q : List UrlRequest) (j : Nat)
    (hlen : j < q.length) (hj : j ≠ 0)
    (hinv : UpInv q q.length j)
    (hlt : (qget q j).ts < (qget q ((j - 1) / 2)).ts) :
    UpInv (qswap q ((j - 1) / 2) j) q.length ((j - 1) / 2) := by
  obtain ⟨h1, h2⟩ := hinv
  have hpj : (j - 1) / 2 < j := by omega
  have hplen : (j - 1) / 2 < q.length := by omega
  constructor
  · intro c hc0 hcn hcp
    by_cases hcj : c = j
    · subst hcj
      rw [qget_qswap_left q _ c hplen hlen, qget_qswap_right q _ c hlen]
      exact le_of_lt hlt
    · by_cases hcpj : (c - 1) / 2 = j
      · rw [hcpj, qget_qswap_right q _ j hlen,
          qget_qswap_other q _ j c hcp hcj]
        exact h2 c hc0 hcn hcpj (by omega)
      · by_cases hcpp : (c - 1) / 2 = (j - 1) / 2
        · rw [hcpp, qget_qswap_left q _ j hplen hlen,
            qget_qswap_other q _ j c hcp hcj]
          have hpar := h1 c hc0 hcn hcj
          rw [hcpp] at hpar
          exact le_trans (le_of_lt hlt) hpar
        · rw [qget_qswap_other q _ j ((c - 1) / 2) hcpp hcpj,
            qget_qswap_other q _ j c hcp hcj]
          exact h1 c hc0 hcn hcj
  · intro c hc0 hcn hcp hp0
    have hcgtp : (j - 1) / 2 < c := by omega
    rw [qget_qswap_other q _ j (((j - 1) / 2 - 1) / 2) (by omega) (by omega)]
    by_cases hcj : c = j
    · subst hcj
      rw [qget_qswap_right q _ c hlen]
      exact h1 ((c - 1) / 2) hp0 hplen (by omega)
    · rw [qget_qswap_other q _ j c (by omega) hcj]
      have hstep1 : (qget q (((j - 1) / 2 - 1) / 2)).ts ≤ (qget q ((j - 1) / 2)).ts :=
        h1 ((j - 1) / 2) hp0 hplen (by omega)
      have hstep2 := h1 c hc0 hcn hcj
      rw [hcp] at hstep2
      exact le_trans hstep1 hstep2

theorem upHeap_isHeap (j : Nat) : ∀ q : List UrlRequest,
    j < q.length → UpInv q q.length j → IsHeapN (upHeap q j) q.length := by
  induction j using Nat.strong_induction_on with
  | _ j ih =>
      intro q hlen hinv
      rw [upHeap]
      by_cases hj : j = 0
      · rw [dif_pos hj]
        subst hj
        intro c hc0 hcn
        exact hinv.1 c hc0 hcn (by omega)
      · rw [dif_neg hj]
        dsimp only
        by_cases hlt : (qget q j).ts < (qget q ((j - 1) / 2)).ts
        · rw [if_pos hlt]
          have hstep := upInv_step q j hlen hj hinv hlt
          have hlq : (qswap q ((j - 1) / 2) j).length = q.length :=
            length_qswap q _ j
          have hres := ih ((j - 1) / 2) (by omega) (qswap q ((j - 1) / 2) j)
            (by rw [hlq]; omega) (by rw [hlq]; exact hstep)
          rw [hlq] at hres
          exact hres
        · rw [if_neg hlt]
          intro c hc0 hcn
          by_cases hcj : c = j
          · subst hcj
            exact le_of_not_lt hlt
          · exact hinv.1 c hc0 hcn hcj

theorem downInv_step (q : List UrlRequest) (n i : Nat)
    (hn : n ≤ q.length) (hi1 : 2 * i + 1 < n)
    (hinv : DownInv q n i)
    (hlt : (qget q (pickChild q i n)).ts < (qget q i).ts) :
    DownInv (qswap q i (pickChild q i n)) n (pickChild q i n) := by
  obtain ⟨h1, h2⟩ := hinv
  set j := pickChild q i n with hjdef
  have hb : i < j ∧ j < n := pickChild_bounds q i n hi1
  have hparent : (j - 1) / 2 = i := pickChild_parent q i n
  have hilen : i < q.length := by omega
  have hjlen : j < q.length := by omega
  constructor
  · intro c hc0 hcn hcp
    by_cases hci : c = i
    · subst hci
      rw [qget_qswap_left q c j hilen hjlen,
        qget_qswap_other q c j ((c - 1) / 2) (by omega) (by omega)]
      exact h2 hc0 j (by omega) (by omega) hparent
    · by_cases hcj : c = j
      · rw [hcj, hparent, qget_qswap_left q i j hilen hjlen,
          qget_qswap_right q i j hjlen]
        exact le_of_lt hlt
      · by_cases hcpi : (c - 1) / 2 = i
        · rw [hcpi, qget_qswap_left q i j hilen hjlen,
            qget_qswap_other q i j c hci hcj]
          exact pickChild_min q i n hi1 c hc0 hcn hcpi
        · rw [qget_qswap_other q i j ((c - 1) / 2) hcpi hcp,
            qget_qswap_other q i j c hci hcj]
          exact h1 c hc0 hcn hcpi
  · intro hj0 c hc0 hcn hcp
    rw [hparent, qget_qswap_left q i j hilen hjlen]
    have hcgt : j < c := by omega
    rw [qget_qswap_other q i j c (by omega) (by omega)]
    have hpar := h1 c hc0 hcn (by omega)
    rw [hcp] at hpar
    exact hpar

theorem downHeap_isHeap (m : Nat) : ∀ (q : List UrlRequest) (i n : Nat),
    n - i ≤ m → n ≤ q.length → DownInv q n i → IsHeapN (downHeap q i n) n := by
  induction m with
  | zero =>
      intro q i n hm hn hinv
      rw [downHeap, dif_neg (by omega)]
      intro c hc0 hcn
      by_cases hcp : (c - 1) / 2 = i
      · exact absurd hcp (by omega)
      · exact hinv.1 c hc0 hcn hcp
  | succ m ih =>
      intro q i n hm hn hinv
      rw [downHeap]
      by_cases h1n : 2 * i + 1 < n
      · rw [dif_pos h1n]
        dsimp only
        by_cases hlt : (qget q (pickChild q i n)).ts < (qget q i).ts
        · rw [if_pos hlt]
          have hb := pickChild_bounds q i n h1n
          exact ih (qswap q i (pickChild q i n)) (pickChild q i n) n (by omega)
            (by rw [length_qswap]; exact hn)
            (downInv_step q n i hn h1n hinv hlt)
        · rw [if_neg hlt]
          intro c hc0 hcn
          by_cases hcp : (c - 1) / 2 = i
          · rw [hcp]
            exact le_trans (le_of_not_lt hlt)
              (pickChild_min q i n h1n c hc0 hcn hcp)
          · exact hinv.1 c hc0 hcn hcp
      · rw [dif_neg h1n]
        intro c hc0 hcn
        by_cases hcp : (c - 1) / 2 = i
        · exact absurd hcp (by omega)
        · exact hinv.1 c hc0 hcn hcp

theorem heapPush_isHeap (q : List UrlRequest) (x : UrlRequest) (hq : IsHeap q) :
    IsHeap (heapPush q x) := by
  have hlen1 : (q ++ [x]).length = q.length + 1 := by simp
  have hinv : UpInv (q ++ [x]) (q ++ [x]).length q.length := by
    constructor
    · intro c hc0 hcn hcne
      rw [hlen1] at hcn
      have hc : c < q.length := by omega
      have hp : (c - 1) / 2 < q.length := by omega
      rw [qget_append_lt q x c hc, qget_append_lt q x ((c - 1) / 2) hp]
      exact hq c hc0 hc
    · intro c hc0 hcn hcp
      rw [hlen1] at hcn
      exact absurd hcp (by omega)
  have hres := upHeap_isHeap q.length (q ++ [x]) (by rw [hlen1]; omega) hinv
  unfold IsHeap heapPush
  rw [length_upHeap]
  exact hres

theorem pop_downInv (q : List UrlRequest) (hne : q ≠ []) (hq : IsHeap q) :
    DownInv (qswap q 0 (q.length - 1)) (q.length - 1) 0 := by
  have hlen : 0 < q.length := List.length_pos.mpr hne
  constructor
  · intro c hc0 hcn hcp
    rw [qget_qswap_other q 0 (q.length - 1) c (by omega) (by omega),
      qget_qswap_other q 0 (q.length - 1) ((c - 1) / 2) (by omega) (by omega)]
    exact hq c hc0 (by omega)
  · intro h0
    exact absurd h0 (lt_irrefl 0)

theorem heapPop_fst (q : List UrlRequest) (hne : q ≠ []) :
    (heapPop q).1 = qget q 0 := by
  have hlen : 0 < q.length := List.length_pos.mpr hne
  unfold heapPop
  dsimp only
  rw [qget_downHeap_ge (q.length - 1) (qswap q 0 (q.length - 1)) 0
    (q.length - 1) (q.length - 1) (by omega) (le_refl _)]
  rw [qget_qswap_right q 0 (q.length - 1) (by omega)]

theorem heapPop_snd_isHeap (q : List UrlRequest) (hne : q ≠ []) (hq : IsHeap q) :
    IsHeap (heapPop q).2 := by
  have hlen : 0 < q.length := List.length_pos.mpr hne
  unfold heapPop
  dsimp only
  have hinv := pop_downInv q hne hq
  have hlsw : (qswap q 0 (q.length - 1)).length = q.length := length_qswap q 0 _
  have hheapN : IsHeapN (downHeap (qswap q 0 (q.length - 1)) 0 (q.length - 1))
      (q.length - 1) :=
    downHeap_isHeap (q.length - 1) (qswap q 0 (q.length - 1)) 0 (q.length - 1)
      (by omega) (by rw [hlsw]; omega) hinv
  have hld : (downHeap (qswap q 0 (q.length - 1)) 0 (q.length - 1)).length =
      q.length := by
    rw [length_downHeap (q.length - 1) _ 0 (q.length - 1) (by omega), hlsw]
  intro c hc0 hcn
  rw [List.length_take, hld] at hcn
  have hcn2 : c < q.length - 1 := by omega
  rw [qget_take _ (q.length - 1) c hcn2,
    qget_take _ (q.length - 1) ((c - 1) / 2) (by omega)]
  exact hheapN c hc0 hcn2

theorem reachableQueue_isHeap (q : List UrlRequest) (h : ReachableQueue q) :
    IsHeap q := by
  induction h with
  | empty =>
      intro c hc0 hcn
      simp at hcn
  | push q x hq ih => exact heapPush_isHeap q x ih
  | pop q hq hne ih => exact heapPop_snd_isHeap q hne ih

theorem heapPop_min (q : List UrlRequest) (hne : q ≠ []) (hq : IsHeap q) :
    (heapPop q).1 ∈ q ∧ ∀ r ∈ q, ((heapPop q).1).ts ≤ r.ts := by
  have hlen : 0 < q.length := List.length_pos.mpr hne
  rw [heapPop_fst q hne]
  constructor
  · rw [qget_eq_getElem q 0 hlen]
    exact List.get_mem q 0 hlen
  · intro r hr
    obtain ⟨c, hc, hceq⟩ := List.getElem_of_mem hr
    have hroot := isHeapN_root_le q q.length hq c hc
    have hgc : qget q c = r := by
      rw [qget_eq_getElem q c hc]
      exact hceq
    rw [hgc] at hroot
    exact hroot

/-- C8: with a zero concurrency ceiling, Fetch invokes fetch inline without
touching the request channel; with a positive ceiling the request is sent to
the worker stamped with its submission time; every queue state the worker
reaches by heap pushes and pops is a binary min-heap keyed by timestamp, and
popping a nonempty reachable queue always yields a queued request of minimal
submission timestamp. -/
theorem c8_scheduler :
    (∀ (net : Nat → GoStr → Except GoStr GoStr) (pat : GoStr → Bool)
      (retry : Nat) (rurl args : GoStr) (now : Int),
      Fetch 0 net pat retry rurl args now =
        .direct (fetch net pat retry rurl args)) ∧
    (∀ (limit : Int) (net : Nat → GoStr → Except GoStr GoStr)
      (pat : GoStr → Bool) (retry : Nat) (rurl args : GoStr) (now : Int),
      0 < limit →
      Fetch limit net pat retry rurl args now =
        .queued { rurl := rurl, args := args, ts := now }) ∧
    (∀ q, ReachableQueue q → IsHeap q) ∧
    (∀ q, ReachableQueue q → q ≠ [] →
      (heapPop q).1 ∈ q ∧ ∀ r ∈ q, ((heapPop q).1).ts ≤ r.ts) := by
  refine ⟨?_, ?_, ?_, ?_⟩
  · intro net pat retry rurl args now
    unfold Fetch
    rw [if_neg (lt_irrefl 0)]
  · intro limit net pat retry rurl args now h
    unfold Fetch
    rw [if_pos h]
  · exact fun q h => reachableQueue_isHeap q h
  · exact fun q h hne => heapPop_min q hne (reachableQueue_isHeap q h)

theorem heapPush_two_eval :
    heapPush (heapPush [] { rurl := [], args := [], ts := 5 })
      { rurl := [], args := [], ts := 3 } =
      [{ rurl := [], args := [], ts := 3 }, { rurl := [], args := [], ts := 5 }] := by
  have e1 : heapPush [] ({ rurl := [], args := [], ts := 5 } : UrlRequest) =
      [{ rurl := [], args := [], ts := 5 }] := by
    rw [heapPush, upHeap]
    rfl
  rw [e1, heapPush]
  simp only [List.singleton_append]
  rw [show ([({ rurl := [], args := [], ts := 5 } : UrlRequest)]).length = 1
    from rfl]
  rw [upHeap, dif_neg one_ne_zero]
  dsimp only
  rw [if_pos (by decide)]
  rw [show qswap [({ rurl := [], args := [], ts := 5 } : UrlRequest),
      { rurl := [], args := [], ts := 3 }] ((1 - 1) / 2) 1 =
    [{ rurl := [], args := [], ts := 3 }, { rurl := [], args := [], ts := 5 }]
    from rfl]
  rw [upHeap, dif_pos rfl]

/-- C8 witness: the dispatch equations at concrete arguments, and the pop of
a reachable two-element queue returning the request with the smaller
timestamp. -/
theorem c8_scheduler_witness :
    Fetch 0 alwaysOkNet truePat 0 [] [] 7 =
      .direct (fetch alwaysOkNet truePat 0 [] []) ∧
    Fetch 2 alwaysOkNet truePat 0 [] [] 7 =
      .queued { rurl := [], args := [], ts := 7 } ∧
    (heapPop (heapPush (heapPush [] { rurl := [], args := [], ts := 5 })
        { rurl := [], args := [], ts := 3 })).1 ∈
      heapPush (heapPush [] { rurl := [], args := [], ts := 5 })
        { rurl := [], args := [], ts := 3 } ∧
    ((heapPop (heapPush (heapPush [] { rurl := [], args := [], ts := 5 })
        { rurl := [], args := [], ts := 3 })).1).ts ≤ 3 := by
  have hreach : ReachableQueue (heapPush (heapPush []
      { rurl := [], args := [], ts := 5 }) { rurl := [], args := [], ts := 3 }) :=
    .push _ _ (.push _ _ .empty)
  have hne : heapPush (heapPush [] { rurl := [], args := [], ts := 5 })
      ({ rurl := [], args := [], ts := 3 } : UrlRequest) ≠ [] := by
    rw [heapPush_two_eval]
    simp
  have hpop := c8_scheduler.2.2.2 _ hreach hne
  refine ⟨c8_scheduler.1 alwaysOkNet truePat 0 [] [] 7,
    c8_scheduler.2.1 2 alwaysOkNet truePat 0 [] [] 7 (by decide),
    hpop.1, ?_⟩
  exact hpop.2 { rurl := [], args := [], ts := 3 } (by rw [heapPush_two_eval]; simp)

end Das2go
